import Mathlib

/-!
Verification development for the haex-sync-server repository.

The CRDT sync engine (src/routes/sync.ts, src/utils/syncUtils.ts), the
storage gateway path handling (src/utils/storageUtils.ts,
src/routes/storage.ts) and the SigV4 freshness gate
(src/utils/storageUtils.ts `verifySignature` / `parseISO8601`) are embedded
shallowly:

* Postgres `text` values are Lean `String`s; the Postgres comparison
  `a > b` on text (and the row comparison `(a, b) > (c, d)`) is modelled as
  lexicographic order on the underlying character list `String.data`.
* `timestamptz` values (`updated_at`, the pull cursor, `now()`) are `Nat`
  (microseconds since epoch); the SigV4 clock is `Int` milliseconds.
* The `sync_changes` table is an association list keyed by the unique cell
  key `(vault_id, table_name, row_pks, column_name)`.
* JavaScript truthiness of the optional batch fields (`batchId && batchSeq
  && batchTotal`) is modelled explicitly: an empty string and the number 0
  are falsy.
* Handlers are pure state transformers `Store → ... → Store × Response`.
-/

namespace HaexSync

/-- Lexicographic strict order on Postgres text values, on the character
list of the string (model of the `text` comparison `b > a`). -/
def textLt (a b : String) : Prop := a.data < b.data

instance : DecidableRel textLt := fun a b =>
  inferInstanceAs (Decidable (a.data < b.data))

/-- One element of the `changes` array accepted by `pushChangesSchema`
(src/routes/sync.ts): unencrypted cell metadata plus optional batch
metadata. -/
structure Change where
  tableName : String
  rowPks : String
  columnName : Option String
  hlcTimestamp : String
  deviceId : Option String := none
  encryptedValue : Option String := none
  nonce : Option String := none
  batchId : Option String := none
  batchSeq : Option Nat := none
  batchTotal : Option Nat := none
deriving DecidableEq

/-- JavaScript truthiness of an optional string (`undefined` and `""` are
falsy). -/
def truthyStr : Option String → Bool
  | none => false
  | some s => decide (s ≠ "")

/-- JavaScript truthiness of an optional number (`undefined` and `0` are
falsy; zod restricts the batch numbers to positive integers, so `0` never
reaches the handler, but the guard is part of the code). -/
def truthyNat : Option Nat → Bool
  | none => false
  | some n => decide (n ≠ 0)

/-- The guard `change.batchId && change.batchSeq && change.batchTotal`
deciding whether a change participates in batch validation
(src/routes/sync.ts line 239, src/utils/syncUtils.ts line 46). -/
def hasBatchMeta (c : Change) : Bool :=
  truthyStr c.batchId && truthyNat c.batchSeq && truthyNat c.batchTotal

/-- Append a change to the group of its batch id, keeping the first-seen
order of keys (JavaScript `Map` insertion-order semantics). -/
def insertBatch (m : List (String × List Change)) (b : String) (c : Change) :
    List (String × List Change) :=
  match m with
  | [] => [(b, [c])]
  | (k, v) :: rest =>
    if k = b then (k, v ++ [c]) :: rest else (k, v) :: insertBatch rest b c

/-- The `batchMap` built by both validators: changes with truthy batch
metadata, grouped by `batchId` in first-seen order. -/
def buildBatchMap (changes : List Change) : List (String × List Change) :=
  changes.foldl
    (fun m c => if hasBatchMeta c then insertBatch m (c.batchId.getD "") c else m)
    []

/-- Structured 400 diagnostics of batch validation (`BatchValidationError`
in src/utils/syncUtils.ts and the inline JSON bodies in
src/routes/sync.ts). -/
inductive BatchError where
  | incomplete (batchId : String) (missingSequences : List Nat)
      (expected received : Nat)
  | duplicate (batchId : String)
deriving DecidableEq

/-- Model of `new Set(batchChanges.map(c => c.batchSeq))`: the distinct sequence
numbers of a batch (distinct `Option Nat` values, in first-occurrence
order). -/
def seqSet (grp : List Change) : List (Option Nat) :=
  (grp.map (fun c => c.batchSeq)).dedup

/-- The loop `for (let i = 1; i <= batchTotal; i++) if (!sequences.has(i))
missingSeqs.push(i)`. -/
def missingSeqs (bt : Nat) (seqs : List (Option Nat)) : List Nat :=
  (List.range' 1 bt).filter (fun i => decide (some i ∉ seqs))

/-- Validation of one batch as done inline by the push handler
(src/routes/sync.ts lines 248-279): the missing-sequence check runs first,
the duplicate check second. -/
def checkBatchInline (b : String) (grp : List Change) : Option BatchError :=
  match grp.head? with
  | none => none
  | some c0 =>
    match c0.batchTotal with
    | none => none
    | some bt =>
      if bt = 0 then none
      else
        let seqs := seqSet grp
        let missing := missingSeqs bt seqs
        if missing ≠ [] then some (.incomplete b missing bt grp.length)
        else if seqs.length ≠ grp.length then some (.duplicate b)
        else none

/-- Validation of one batch as done by `validateBatches`
(src/utils/syncUtils.ts lines 55-85): the duplicate check runs first, the
missing-sequence check second. -/
def checkBatchUtil (b : String) (grp : List Change) : Option BatchError :=
  match grp.head? with
  | none => none
  | some c0 =>
    match c0.batchTotal with
    | none => none
    | some bt =>
      if bt = 0 then none
      else
        let seqs := seqSet grp
        if seqs.length ≠ grp.length then some (.duplicate b)
        else
          let missing := missingSeqs bt seqs
          if missing ≠ [] then some (.incomplete b missing bt grp.length)
          else none

/-- First error produced while walking the batch map in order (the loops
return on the first failing batch). -/
def firstBatchError (f : String → List Change → Option BatchError) :
    List (String × List Change) → Option BatchError
  | [] => none
  | (b, grp) :: rest =>
    match f b grp with
    | some e => some e
    | none => firstBatchError f rest

/-- The batch validation performed inline by `POST /sync/push` before the
transaction (src/routes/sync.ts lines 236-279). -/
def inlineValidate (changes : List Change) : Option BatchError :=
  firstBatchError checkBatchInline (buildBatchMap changes)

/-- The standalone pure function `validateBatches`
(src/utils/syncUtils.ts lines 41-88). -/
def validateBatches (changes : List Change) : Option BatchError :=
  firstBatchError checkBatchUtil (buildBatchMap changes)

/-- The unique cell key of the change store:
`(vault_id, table_name, row_pks, column_name)` (conflict target of the
upsert, unique index in src/db/schema.ts). -/
structure Cell where
  vaultId : String
  tableName : String
  rowPks : String
  columnName : Option String
deriving DecidableEq

/-- The stored (non-key) attributes of a change record in `sync_changes`. -/
structure StoredRow where
  userId : String
  hlcTimestamp : String
  deviceId : Option String
  encryptedValue : Option String
  nonce : Option String
  createdAt : Nat
  updatedAt : Nat
deriving DecidableEq

/-- The change store: `sync_changes` as an association list over the
unique cell key. -/
abbrev Store := List (Cell × StoredRow)

def lookupCell (st : Store) (k : Cell) : Option StoredRow :=
  (st.find? (fun q => decide (q.1 = k))).map (fun q => q.2)

def setCell : Store → Cell → StoredRow → Store
  | [], k, r => [(k, r)]
  | (k', r') :: rest, k, r =>
    if k' = k then (k, r) :: rest else (k', r') :: setCell rest k r

/-- The `ON CONFLICT DO UPDATE SET` merge rule of the push upsert
(src/routes/sync.ts lines 310-321): every `CASE` guards on
`EXCLUDED.hlc_timestamp > sync_changes.hlc_timestamp`; a strictly newer
HLC replaces the value fields and sets `updated_at := now()`, otherwise
the row is kept unchanged (including `updated_at`). -/
def mergeRow (existing : StoredRow) (incoming : Change) (now : Nat) :
    StoredRow :=
  if textLt existing.hlcTimestamp incoming.hlcTimestamp then
    { existing with
        hlcTimestamp := incoming.hlcTimestamp
        deviceId := incoming.deviceId
        encryptedValue := incoming.encryptedValue
        nonce := incoming.nonce
        updatedAt := now }
  else existing

/-- A freshly inserted row (no conflict): `created_at` and `updated_at`
take their `defaultNow()` column defaults. -/
def freshRow (userId : String) (c : Change) (now : Nat) : StoredRow :=
  { userId := userId
    hlcTimestamp := c.hlcTimestamp
    deviceId := c.deviceId
    encryptedValue := c.encryptedValue
    nonce := c.nonce
    createdAt := now
    updatedAt := now }

def cellOf (vaultId : String) (c : Change) : Cell :=
  { vaultId := vaultId
    tableName := c.tableName
    rowPks := c.rowPks
    columnName := c.columnName }

/-- Effect of inserting one change on its cell: plain insert when the cell
is absent, the `ON CONFLICT` merge when it exists (the conflict update
does not touch `user_id` or `created_at`). -/
def applyCell (st : Option StoredRow) (c : Change) (userId : String)
    (now : Nat) : StoredRow :=
  match st with
  | none => freshRow userId c now
  | some r => mergeRow r c now

/-- Upsert of one change into the store; the second component is the
`hlc_timestamp` of the row as returned by `RETURNING` (the post-merge
stored value). -/
def upsertChange (st : Store) (userId vaultId : String) (c : Change)
    (now : Nat) : Store × String :=
  let k := cellOf vaultId c
  let r := applyCell (lookupCell st k) c userId now
  (setCell st k r, r.hlcTimestamp)

/-- The chunked `INSERT ... ON CONFLICT DO UPDATE ... RETURNING` loop of
the push transaction, applied to each change in submission order; returns
the final store and the returned `hlc_timestamp`s in order
(`allInsertedChanges`). The model assumes the request touches each cell at
most once, as Postgres rejects a single `INSERT ... ON CONFLICT` statement
that affects one row twice. -/
def applyChanges (st : Store) (userId vaultId : String) (now : Nat) :
    List Change → Store × List String
  | [] => (st, [])
  | c :: rest =>
    let p := upsertChange st userId vaultId c now
    let q := applyChanges p.1 userId vaultId now rest
    (q.1, p.2 :: q.2)

/-- Response of `POST /sync/push`: either the structured 400 body of a
batch validation failure, or the 200 body
`{count, lastHlc, serverTimestamp}` (src/routes/sync.ts lines 262-278 and
333-338). -/
inductive PushResp where
  | badRequest (e : BatchError)
  | ok (count : Nat) (lastHlc : Option String) (serverTimestamp : Nat)
deriving DecidableEq

/-- The `POST /sync/push` handler (src/routes/sync.ts lines 230-343):
batch validation runs before the transaction and a failure returns 400
with the store untouched; otherwise all changes are applied in one
transaction and the 200 body reports `result.length`, the last returned
row's `hlc_timestamp`, and the server time. -/
def pushHandler (st : Store) (userId vaultId : String)
    (changes : List Change) (now : Nat) : Store × PushResp :=
  match inlineValidate changes with
  | some e => (st, .badRequest e)
  | none =>
    let q := applyChanges st userId vaultId now changes
    (q.1, .ok q.2.length q.2.getLast? now)

/-! Pull: `GET /sync/pull` (src/routes/sync.ts lines 354-449) -/

/-- Query parameters of `GET /sync/pull` (`pullChangesSchema`);
`afterUpdatedAt` is modelled as the parsed `timestamptz` value. -/
structure PullParams where
  vaultId : String
  excludeDeviceId : Option String := none
  afterUpdatedAt : Option Nat := none
  afterTableName : Option String := none
  afterRowPks : Option String := none
  limit : Nat := 100
deriving DecidableEq

/-- SQL filter `ne(deviceId, excludeDeviceId)`: under SQL three-valued
logic a row with `device_id IS NULL` does not satisfy the `<>` predicate
and is filtered out. -/
def deviceFilter (ex : Option String) (r : StoredRow) : Bool :=
  match ex with
  | none => true
  | some d =>
    match r.deviceId with
    | none => false
    | some x => decide (x ≠ d)

/-- The `WHERE` clause of the row-page query: records of the
authenticated user in the requested vault, minus the excluded device. -/
def baseRows (st : Store) (userId : String) (p : PullParams) : Store :=
  st.filter (fun q =>
    decide (q.2.userId = userId) && decide (q.1.vaultId = p.vaultId) &&
      deviceFilter p.excludeDeviceId q.2)

/-- The `GROUP BY table_name, row_pks`: the distinct group keys, in
first-occurrence order. -/
def rowKeysOf (rs : Store) : List (String × String) :=
  (rs.map (fun q => (q.1.tableName, q.1.rowPks))).dedup

/-- Aggregate `max(updated_at)` over one `(table_name, row_pks)` group. -/
def groupMax (rs : Store) (k : String × String) : Nat :=
  ((rs.filter (fun q =>
      decide (q.1.tableName = k.1 ∧ q.1.rowPks = k.2))).map
    (fun q => q.2.updatedAt)).foldl Nat.max 0

/-- SQL row comparison `(a₁, a₂) > (b₁, b₂)` on text pairs. -/
def sqlPairGt (a₁ a₂ b₁ b₂ : String) : Bool :=
  decide (textLt b₁ a₁) || (decide (a₁.data = b₁.data) && decide (textLt b₂ a₂))

/-- The `HAVING` clause (src/routes/sync.ts lines 380-392). The secondary
cursor is used only when `afterTableName && afterRowPks` is truthy in
JavaScript; otherwise only `max(updated_at) > afterUpdatedAt` filters. -/
def havingCond (p : PullParams) (m : Nat) (k : String × String) : Bool :=
  match p.afterUpdatedAt with
  | none => true
  | some t =>
    if truthyStr p.afterTableName && truthyStr p.afterRowPks then
      decide (t < m) ||
        (decide (m = t) &&
          sqlPairGt k.1 k.2 (p.afterTableName.getD "") (p.afterRowPks.getD ""))
    else decide (t < m)

/-- Composite pagination key of a row group:
`(max(updated_at), table_name, row_pks)` in component-wise lexicographic
order. -/
def rowKey (g : Nat × String × String) :
    Lex (Nat × Lex (List Char × List Char)) :=
  toLex (g.1, toLex (g.2.1.data, g.2.2.data))

/-- The composite key of the cursor triple `(t, T, R)`. -/
def cursorKey (t : Nat) (T R : String) :
    Lex (Nat × Lex (List Char × List Char)) :=
  toLex (t, toLex (T.data, R.data))

/-- The `ORDER BY max(updated_at) ASC, table_name ASC, row_pks ASC` clause as a
non-strict order on row groups. -/
def rowLe (a b : Nat × String × String) : Prop := rowKey a ≤ rowKey b

/-- Strict composite order on row groups. -/
def rowLt (a b : Nat × String × String) : Prop := rowKey a < rowKey b

instance : DecidableRel rowLe := fun a b =>
  inferInstanceAs (Decidable (rowKey a ≤ rowKey b))

instance : DecidableRel rowLt := fun a b =>
  inferInstanceAs (Decidable (rowKey a < rowKey b))

instance : IsTotal (Nat × String × String) rowLe :=
  ⟨fun a b => le_total (rowKey a) (rowKey b)⟩

instance : IsTrans (Nat × String × String) rowLe :=
  ⟨fun _ _ _ h h' => le_trans h h'⟩

/-- Step 1 of the pull (`modifiedRowsQuery`): group, aggregate, filter by
the cursor in `HAVING`, order by the composite key, and keep at most
`limit` groups. Each returned triple is
`(max(updated_at), table_name, row_pks)`. -/
def rowPage (st : Store) (userId : String) (p : PullParams) :
    List (Nat × String × String) :=
  let rs := baseRows st userId p
  let groups := (rowKeysOf rs).map (fun k => (groupMax rs k, k.1, k.2))
  let filtered := groups.filter (fun g => havingCond p g.1 (g.2.1, g.2.2))
  (List.insertionSort rowLe filtered).take p.limit

/-- The `ORDER BY updated_at` of the step-2 query. -/
def updLe (a b : Cell × StoredRow) : Prop := a.2.updatedAt ≤ b.2.updatedAt

instance : DecidableRel updLe := fun a b =>
  inferInstanceAs (Decidable (a.2.updatedAt ≤ b.2.updatedAt))

/-- Step 2 of the pull (`allColumnsForRows`, src/routes/sync.ts lines
404-419): every change record of the user's vault whose
`(table_name, row_pks)` appears in the row page — with no cursor or
device filter — ordered by `updated_at`. -/
def allColumnsForRows (st : Store) (userId vaultId : String)
    (page : List (Nat × String × String)) : Store :=
  List.insertionSort updLe
    (st.filter (fun q =>
      decide (q.2.userId = userId) && decide (q.1.vaultId = vaultId) &&
        page.any (fun g =>
          decide (q.1.tableName = g.2.1) && decide (q.1.rowPks = g.2.2))))

/-- The records returned in the `changes` array of `GET /sync/pull`: the
handler returns early with an empty list when the row page is empty,
otherwise it runs step 2 over the page. -/
def pullChanges (st : Store) (userId : String) (p : PullParams) : Store :=
  let page := rowPage st userId p
  if page.isEmpty then [] else allColumnsForRows st userId p.vaultId page

/-! Storage gateway path handling
(src/utils/storageUtils.ts lines 9-42, src/routes/storage.ts) -/

/-- Model of `getUserBucket` in src/utils/storageUtils.ts: prefix `user-`. -/
def getUserBucket (userId : String) : String := "user-" ++ userId

/-- Model of `getUserBucket` in src/routes/storage.ts (the deployment forwarding to
a managed S3): prefix `storage-`. -/
def getStorageBucket (userId : String) : String := "storage-" ++ userId

/-- Drop a matched anchored prefix of `n` characters from a string. -/
def strDropChars (s : String) (n : Nat) : String := String.mk (s.data.drop n)

/-- Anchored prefix test on the character lists (model of the anchored
regexes of `extractBucketAndKey`). -/
def strStartsWith (s p : String) : Bool := p.data.isPrefixOf s.data

/-- The replacement `path.replace(/^\/storage/, '')`. -/
def stripStorageRoute (p : String) : String :=
  if strStartsWith p "/storage" then strDropChars p 8 else p

/-- The replacement `cleanPath.replace(/^\/s3\/?/, '')`: the greedy regex removes `/s3/`
when present, else the prefix `/s3`. -/
def stripS3Route (p : String) : String :=
  if strStartsWith p "/s3/" then strDropChars p 4
  else if strStartsWith p "/s3" then strDropChars p 3
  else p

/-- The `cleanPath` computed by `extractBucketAndKey`. -/
def cleanPath (p : String) : String := stripS3Route (stripStorageRoute p)

/-- JavaScript `String.prototype.split` on a single separator character
(`"".split` yields `[""]`, adjacent separators yield empty segments). -/
def splitOnChar (sep : Char) : List Char → List (List Char)
  | [] => [[]]
  | c :: rest =>
    let r := splitOnChar sep rest
    if c = sep then [] :: r
    else
      match r with
      | [] => [[c]]
      | h :: t => (c :: h) :: t

/-- The split `cleanPath.split('/')` as strings. -/
def pathParts (s : String) : List String :=
  (splitOnChar '/' s.data).map String.mk

/-- The join `parts.join('/')`. -/
def joinSlash (parts : List String) : String :=
  String.mk (List.intercalate ['/'] (parts.map String.data))

/-- Function `extractBucketAndKey`, generic in the bucket-derivation function (the
two copies in src/utils/storageUtils.ts and src/routes/storage.ts differ
only in the prefix used by `getUserBucket`): empty clean path means a list
request at the caller's own bucket root; otherwise the first `/`-separated
segment must equal the caller's derived bucket and the key is the
remainder `parts.slice(1).join('/')`. -/
def extractBucketAndKeyWith (bucketOf : String → String) (path userId : String) :
    Option (String × String) :=
  let cp := cleanPath path
  if cp = "" then some (bucketOf userId, "")
  else
    let parts := pathParts cp
    let requestedBucket := parts.headD ""
    let key := joinSlash (parts.drop 1)
    if requestedBucket ≠ bucketOf userId then none
    else some (requestedBucket, key)

/-- The `extractBucketAndKey` of src/utils/storageUtils.ts. -/
def extractBucketAndKey (path userId : String) : Option (String × String) :=
  extractBucketAndKeyWith getUserBucket path userId

/-- The `extractBucketAndKey` of src/routes/storage.ts. -/
def extractBucketAndKeyS3 (path userId : String) : Option (String × String) :=
  extractBucketAndKeyWith getStorageBucket path userId

inductive Method where
  | put
  | get
  | delete
  | head
deriving DecidableEq

/-- Outcome of a `/storage/s3/*` route handler before any backend call:
403 on a foreign bucket, 400 on a missing key for object operations, a
bucket-root list for `GET`, or a forward of `(bucket, key)` to the
backend. -/
inductive RouteOutcome where
  | forbidden
  | missingKey
  | listBucket (bucket : String)
  | forward (bucket key : String)
deriving DecidableEq

/-- First steps shared by the four `/s3/*` handlers of
src/routes/storage.ts: every method first extracts the bucket and key and
answers 403 (`Access denied: invalid bucket`) when the bucket segment is
not the caller's derived bucket, before any backend request is built. -/
def storageRouteGuard (m : Method) (path userId : String) : RouteOutcome :=
  match extractBucketAndKeyS3 path userId with
  | none => .forbidden
  | some (b, k) =>
    match m with
    | .get => if k = "" then .listBucket b else .forward b k
    | _ => if k = "" then .missingKey else .forward b k

/-! SigV4 freshness gate
(src/utils/storageUtils.ts `verifySignature` lines 243-248 and
`parseISO8601` lines 305-334) -/

/-- Decimal value of a digit list (`parseInt` on a digits-only string). -/
def digitsVal (cs : List Char) : Nat :=
  cs.foldl (fun n c => 10 * n + (c.toNat - 48)) 0

/-- Hinnant's civil-from-days algorithm: days since 1970-01-01 of the
civil date `(y, m, d)` with `m ∈ [1,12]`; floor division throughout. -/
def daysFromCivil (y m d : Int) : Int :=
  let y' := if m ≤ 2 then y - 1 else y
  let era := Int.fdiv y' 400
  let yoe := y' - era * 400
  let mp := Int.emod (m + 9) 12
  let doy := Int.fdiv (153 * mp + 2) 5 + d - 1
  let doe := yoe * 365 + Int.fdiv yoe 4 - Int.fdiv yoe 100 + doy
  era * 146097 + doe - 719468

/-- ECMAScript maps a year argument in `[0, 99]` to `1900 + year`. -/
def jsYearAdjust (y : Int) : Int := if 0 ≤ y ∧ y ≤ 99 then 1900 + y else y

/-- Model of `Date.UTC(year, monthIndex, day, hour, minute, second)` in
milliseconds: out-of-range month/day/time components roll over as in
ECMAScript `MakeDay`/`MakeTime`. -/
def dateUTCms (year monthIndex day hour minute second : Int) : Int :=
  let y0 := jsYearAdjust year
  let ya := y0 + Int.fdiv monthIndex 12
  let m := Int.emod monthIndex 12 + 1
  (daysFromCivil ya m 1 + (day - 1)) * 86400000 +
    hour * 3600000 + minute * 60000 + second * 1000

/-- Model of `parseISO8601` (src/utils/storageUtils.ts lines 305-334): the
timestamp must match `^(\d{4})(\d{2})(\d{2})T(\d{2})(\d{2})(\d{2})Z$`; the
six captured numbers are handed to `Date.UTC` (month decremented) with no
range validation. Anything else — including the empty string — yields
`none`. -/
def parseISO8601 (timestamp : String) : Option Int :=
  match timestamp.data with
  | [y1, y2, y3, y4, mo1, mo2, d1, d2, tc, h1, h2, mi1, mi2, s1, s2, zc] =>
    if tc = 'T' ∧ zc = 'Z' ∧
        ([y1, y2, y3, y4, mo1, mo2, d1, d2, h1, h2, mi1, mi2,
          s1, s2].all Char.isDigit) = true then
      some (dateUTCms (digitsVal [y1, y2, y3, y4])
        ((digitsVal [mo1, mo2] : Int) - 1) (digitsVal [d1, d2])
        (digitsVal [h1, h2]) (digitsVal [mi1, mi2]) (digitsVal [s1, s2]))
    else none
  | _ => none

/-- The freshness gate of `verifySignature` (src/utils/storageUtils.ts
lines 244-248): reject when the timestamp does not parse or when
`Math.abs(Date.now() - requestTime.getTime()) > 900000`; otherwise
verification proceeds. -/
def timeSkewCheck (nowMs : Int) (timestamp : String) : Bool :=
  match parseISO8601 timestamp with
  | none => false
  | some t => decide ((nowMs - t).natAbs ≤ 900000)

/-! Per-cell view of the upsert, for the LWW and `updated_at`
invariants -/

/-- Lexicographic maximum of two HLC strings. -/
def hlcMax (a b : String) : String := if textLt a b then b else a

/-- Lexicographic maximum of a non-empty list of HLC strings. -/
def hlcMaxList : List String → String
  | [] => ""
  | h :: t => t.foldl hlcMax h

/-- One push applied to an existing record of a cell: the change together
with the server time `now()` of its transaction. -/
def pushStep (s : StoredRow) (q : Change × Nat) : StoredRow :=
  mergeRow s q.1 q.2

/-- A sequence of pushes targeting one cell, starting from an absent
record: the first push inserts the row, every later push hits the
`ON CONFLICT` merge of the upsert. -/
def applyCellSeq (userId : String) (pushes : List (Change × Nat)) :
    Option StoredRow :=
  pushes.foldl (fun st q => some (applyCell st q.1 userId q.2)) none

/-! Concrete fixtures used by counterexamples and witnesses -/

/-- A batched change: cell `(tbl, "[1]", "c")`, HLC `"h" ++ seq`, batch
`"B"` with the given sequence number and total. -/
def mkBatched (tbl : String) (seq tot : Nat) : Change :=
  { tableName := tbl
    rowPks := "[1]"
    columnName := some "c"
    hlcTimestamp := "h" ++ toString seq
    batchId := some "B"
    batchSeq := some seq
    batchTotal := some tot }

/-- An unbatched change for cell `(tbl, pk, "c")` carrying the given HLC
and an encrypted payload derived from the HLC. -/
def mkPlain (tbl pk hlc : String) : Change :=
  { tableName := tbl
    rowPks := pk
    columnName := some "c"
    hlcTimestamp := hlc
    deviceId := some "dev"
    encryptedValue := some ("enc-" ++ hlc)
    nonce := some ("n-" ++ hlc) }

/-- A stored record of vault `"v"`, user `"u"`, with one column `col` of
row `(tbl, pk)` written at server time `upd`. -/
def mkStored (tbl pk col : String) (upd : Nat) : Cell × StoredRow :=
  ({ vaultId := "v", tableName := tbl, rowPks := pk, columnName := some col },
   { userId := "u", hlcTimestamp := "h", deviceId := some "d1",
     encryptedValue := some "x", nonce := some "n",
     createdAt := upd, updatedAt := upd })

/-! Theorems about the claims. -/

/-- C8 counterexample: a request whose `x-amz-date` lies exactly 900
seconds from the server clock passes the freshness gate (the code rejects
only a distance strictly greater than 900000 ms), contradicting the
claimed strict `< 900 s` window that rejects the boundary. -/
theorem sigv4_skew_boundary_accepted :
    parseISO8601 "20200101T000000Z" = some 1577836800000
    ∧ ((1577837700000 - 1577836800000 : Int).natAbs = 900000)
    ∧ timeSkewCheck 1577837700000 "20200101T000000Z" = true := by
  decide

/-- C8 (amended): the SigV4 freshness gate accepts exactly the requests
whose `x-amz-date` parses as `YYYYMMDDTHHMMSSZ` and whose absolute
distance from the server clock is at most 900 seconds (the boundary is
accepted); a request farther away in either direction, or with a missing
or malformed timestamp, is rejected. -/
theorem sigv4_skew_gate_iff (nowMs : Int) (ts : String) :
    timeSkewCheck nowMs ts = true ↔
      ∃ t, parseISO8601 ts = some t ∧ (nowMs - t).natAbs ≤ 900000 := by
  unfold timeSkewCheck
  cases h : parseISO8601 ts with
  | none => simp
  | some t => simp

/-- Closed form of the generic extractor on paths that carry a bucket
segment. -/
theorem extractBucketAndKeyWith_eq (bucketOf : String → String)
    (path userId : String) (hseg : cleanPath path ≠ "") :
    extractBucketAndKeyWith bucketOf path userId =
      (if (pathParts (cleanPath path)).headD "" = bucketOf userId
       then some (bucketOf userId, joinSlash ((pathParts (cleanPath path)).drop 1))
       else none) := by
  unfold extractBucketAndKeyWith
  simp [hseg]
  split
  · next hc => simp_all
  · rfl

/-- C9: for every method, user id and gateway path with a bucket segment,
`extractBucketAndKey` succeeds exactly when the bucket segment equals the
bucket derived from the user id, returning the rest of the path as key;
and each `/s3/*` route handler answers 403 before any backend call when
the segment is not the caller's derived bucket. -/
theorem storage_bucket_isolation (m : Method) (path userId : String)
    (hseg : cleanPath path ≠ "") :
    (extractBucketAndKey path userId =
      (if (pathParts (cleanPath path)).headD "" = getUserBucket userId
       then some (getUserBucket userId,
         joinSlash ((pathParts (cleanPath path)).drop 1))
       else none))
    ∧ ((pathParts (cleanPath path)).headD "" ≠ getStorageBucket userId →
        storageRouteGuard m path userId = RouteOutcome.forbidden) := by
  refine ⟨extractBucketAndKeyWith_eq getUserBucket path userId hseg, fun hne => ?_⟩
  unfold storageRouteGuard extractBucketAndKeyS3
  rw [extractBucketAndKeyWith_eq getStorageBucket path userId hseg, if_neg hne]

/-- C9 witness: user `alice` requesting `/storage/s3/user-bob/x.txt` — a
path with a foreign bucket segment — is refused by the extractor and gets
403 from the route guard. -/
theorem storage_bucket_isolation_witness :
    cleanPath "/storage/s3/user-bob/x.txt" ≠ ""
    ∧ ((extractBucketAndKey "/storage/s3/user-bob/x.txt" "alice" =
        (if (pathParts (cleanPath "/storage/s3/user-bob/x.txt")).headD ""
              = getUserBucket "alice"
         then some (getUserBucket "alice",
           joinSlash ((pathParts (cleanPath "/storage/s3/user-bob/x.txt")).drop 1))
         else none))
      ∧ ((pathParts (cleanPath "/storage/s3/user-bob/x.txt")).headD ""
            ≠ getStorageBucket "alice" →
          storageRouteGuard Method.put "/storage/s3/user-bob/x.txt" "alice"
            = RouteOutcome.forbidden)) :=
  ⟨by decide,
   storage_bucket_isolation Method.put "/storage/s3/user-bob/x.txt" "alice"
     (by decide)⟩

/-- A walk over the batch map yields an error exactly when some batch
fails its per-batch check. -/
theorem firstBatchError_isSome_iff
    (f : String → List Change → Option BatchError)
    (l : List (String × List Change)) :
    (firstBatchError f l).isSome ↔ ∃ p ∈ l, (f p.1 p.2).isSome := by
  induction l with
  | nil => simp [firstBatchError]
  | cons hd tl ih =>
    obtain ⟨b, grp⟩ := hd
    unfold firstBatchError
    cases h : f b grp with
    | none => simp [h, ih]
    | some e => simp [h]

/-- The inline per-batch check and the `validateBatches` per-batch check
fail on the same batches (they differ only in which defect they test
first). -/
theorem checkBatch_isSome_iff (b : String) (grp : List Change) :
    (checkBatchInline b grp).isSome ↔ (checkBatchUtil b grp).isSome := by
  cases grp with
  | nil => simp [checkBatchInline, checkBatchUtil]
  | cons c0 rest =>
    unfold checkBatchInline checkBatchUtil
    simp only [List.head?_cons]
    cases ht : c0.batchTotal with
    | none => simp
    | some bt =>
      simp only [ht]
      by_cases h0 : bt = 0
      · simp [h0]
      · simp only [h0, if_false]
        split_ifs <;> simp_all

/-- C10 (amended): the inline validation of `POST /sync/push` and the
standalone `validateBatches` reject exactly the same change lists; their
error reports agree except on a batch that simultaneously has a missing
and a duplicate sequence number, where the handler reports the incomplete
diagnosis and `validateBatches` the duplicate one. -/
theorem batch_validators_same_rejections (changes : List Change) :
    (inlineValidate changes).isSome ↔ (validateBatches changes).isSome := by
  unfold inlineValidate validateBatches
  rw [firstBatchError_isSome_iff, firstBatchError_isSome_iff]
  exact exists_congr fun p =>
    and_congr_right fun _ => checkBatch_isSome_iff p.1 p.2

/-- C10 counterexample: on sequences `[1,2,4,5,5]` with `batch_total = 5`
the handler's inline validation reports `Incomplete batch` (missing `[3]`)
while `validateBatches` reports `Duplicate sequence numbers in batch`, so
the two do not produce the same error object. -/
theorem batch_validators_differ_on_double_defect :
    inlineValidate [mkBatched "a" 1 5, mkBatched "b" 2 5, mkBatched "c" 4 5,
        mkBatched "d" 5 5, mkBatched "e" 5 5]
      = some (BatchError.incomplete "B" [3] 5 5)
    ∧ validateBatches [mkBatched "a" 1 5, mkBatched "b" 2 5, mkBatched "c" 4 5,
        mkBatched "d" 5 5, mkBatched "e" 5 5]
      = some (BatchError.duplicate "B")
    ∧ BatchError.incomplete "B" [3] 5 5 ≠ BatchError.duplicate "B" := by
  decide

/-- C6 counterexample: two changes share batch `"B"` but disagree on
`batch_total` (1 vs 2); the push is nevertheless accepted — validation
passes, both rows are written and the response is 200 — contradicting the
claim that the request is rejected without writing. -/
theorem push_batch_total_disagreement_accepted :
    (mkBatched "t1" 1 1).batchId = (mkBatched "t2" 2 2).batchId
    ∧ (mkBatched "t1" 1 1).batchTotal ≠ (mkBatched "t2" 2 2).batchTotal
    ∧ inlineValidate [mkBatched "t1" 1 1, mkBatched "t2" 2 2] = none
    ∧ (pushHandler [] "u" "v" [mkBatched "t1" 1 1, mkBatched "t2" 2 2] 3).1.length = 2
    ∧ (pushHandler [] "u" "v" [mkBatched "t1" 1 1, mkBatched "t2" 2 2] 3).2
        = PushResp.ok 2 (some "h2") 3 := by
  decide

/-- C6 (amended): `POST /sync/push` does not check agreement of
`batch_total`: a batch is validated only against the `batch_total` of its
first change and the multiset of sequence numbers — the per-batch check is
invariant under changing the `batch_total` of later members — and a push
whose batches pass that check is accepted and written even when its
changes disagree on `batch_total`. -/
theorem push_batch_total_first_only :
    (∀ (b : String) (grp grp' : List Change),
        grp.head?.map (fun c => c.batchTotal) = grp'.head?.map (fun c => c.batchTotal) →
        grp.map (fun c => c.batchSeq) = grp'.map (fun c => c.batchSeq) →
        checkBatchInline b grp = checkBatchInline b grp')
    ∧ inlineValidate [mkBatched "t1" 1 1, mkBatched "t2" 2 2] = none
    ∧ (pushHandler [] "u" "v" [mkBatched "t1" 1 1, mkBatched "t2" 2 2] 3).1.length = 2
    ∧ (pushHandler [] "u" "v" [mkBatched "t1" 1 1, mkBatched "t2" 2 2] 3).2
        = PushResp.ok 2 (some "h2") 3 := by
  refine ⟨fun b grp grp' h1 h2 => ?_, by decide, by decide, by decide⟩
  cases grp with
  | nil =>
    cases grp' with
    | nil => rfl
    | cons y ys => simp at h2
  | cons x xs =>
    cases grp' with
    | nil => simp at h2
    | cons y ys =>
      have hlen : (x :: xs).length = (y :: ys).length := by
        simpa using congrArg List.length h2
      have htot : x.batchTotal = y.batchTotal := by simpa using h1
      unfold checkBatchInline
      simp only [List.head?_cons]
      unfold seqSet
      rw [h2, hlen, htot]

/-- C6 witness: instantiating the per-batch invariance at batches whose
second members carry totals 2 and 7. -/
theorem push_batch_total_first_only_witness :
    checkBatchInline "B" [mkBatched "t1" 1 1, mkBatched "t2" 2 2]
      = checkBatchInline "B" [mkBatched "t1" 1 1, mkBatched "t2" 2 7] :=
  push_batch_total_first_only.1 "B"
    [mkBatched "t1" 1 1, mkBatched "t2" 2 2]
    [mkBatched "t1" 1 1, mkBatched "t2" 2 7]
    (by decide) (by decide)

/-- Grouping via `insertBatch` preserves: every group is non-empty and all members
carry truthy batch metadata. -/
theorem insertBatch_groups (m : List (String × List Change)) (b : String)
    (c : Change)
    (hm : ∀ p ∈ m, p.2 ≠ [] ∧ ∀ x ∈ p.2, hasBatchMeta x = true)
    (hc : hasBatchMeta c = true) :
    ∀ p ∈ insertBatch m b c, p.2 ≠ [] ∧ ∀ x ∈ p.2, hasBatchMeta x = true := by
  induction m with
  | nil =>
    intro p hp
    simp only [insertBatch, List.mem_singleton] at hp
    subst hp
    exact ⟨by simp, by simpa using hc⟩
  | cons hd tl ih =>
    obtain ⟨k, v⟩ := hd
    intro p hp
    unfold insertBatch at hp
    by_cases hk : k = b
    · simp only [hk, if_true] at hp
      rcases List.mem_cons.mp hp with h | h
      · subst h
        refine ⟨by simp, fun x hx => ?_⟩
        rcases List.mem_append.mp hx with h' | h'
        · exact (hm (k, v) (List.mem_cons_self _ _)).2 x h'
        · simpa [List.mem_singleton.mp h'] using hc
      · exact hm p (List.mem_cons_of_mem _ h)
    · simp only [hk, if_false] at hp
      rcases List.mem_cons.mp hp with h | h
      · subst h
        exact hm (k, v) (List.mem_cons_self _ _)
      · exact ih (fun q hq => hm q (List.mem_cons_of_mem _ hq)) p h

/-- Every group of the batch map is non-empty and consists of changes
with truthy batch metadata. -/
theorem buildBatchMap_groups (changes : List Change) :
    ∀ p ∈ buildBatchMap changes,
      p.2 ≠ [] ∧ ∀ x ∈ p.2, hasBatchMeta x = true := by
  unfold buildBatchMap
  suffices h : ∀ (cs : List Change) (m : List (String × List Change)),
      (∀ p ∈ m, p.2 ≠ [] ∧ ∀ x ∈ p.2, hasBatchMeta x = true) →
      ∀ p ∈ cs.foldl
        (fun m c => if hasBatchMeta c then insertBatch m (c.batchId.getD "") c else m) m,
        p.2 ≠ [] ∧ ∀ x ∈ p.2, hasBatchMeta x = true by
    exact h changes [] (by simp)
  intro cs
  induction cs with
  | nil => intro m hm; simpa using hm
  | cons c rest ih =>
    intro m hm
    simp only [List.foldl_cons]
    by_cases hc : hasBatchMeta c = true
    · simp only [hc, if_true]
      exact ih _ (insertBatch_groups m _ c hm hc)
    · simp only [Bool.not_eq_true] at hc
      simp only [hc, Bool.false_eq_true, if_false]
      exact ih m hm

/-- Any error produced by the inline per-batch check is structured: an
incomplete diagnosis with a non-empty missing-sequence list (plus the
expected and received counts), or a duplicate diagnosis. -/
theorem checkBatchInline_shape (b : String) (grp : List Change)
    (e : BatchError) (h : checkBatchInline b grp = some e) :
    (∃ bid miss exp recv,
        e = BatchError.incomplete bid miss exp recv ∧ miss ≠ [])
    ∨ ∃ bid, e = BatchError.duplicate bid := by
  unfold checkBatchInline at h
  split at h
  · simp at h
  · split at h
    · simp at h
    · split at h
      · simp at h
      · simp only [ne_eq, ite_not] at h
        split at h
        · split at h
          · simp at h
          · right
            obtain rfl := ((Option.some.injEq _ _).mp h).symm
            exact ⟨b, rfl⟩
        · next hmiss =>
          left
          obtain rfl := ((Option.some.injEq _ _).mp h).symm
          exact ⟨b, _, _, _, rfl, hmiss⟩

/-- A batch whose sequence numbers miss a value in `{1..bt}` or contain a
duplicate fails the inline per-batch check. -/
theorem checkBatchInline_isSome_of_bad (b : String) (grp : List Change)
    (hne : grp ≠ [])
    (hmeta : ∀ c ∈ grp, hasBatchMeta c = true) (bt : Nat)
    (htot : ∀ c ∈ grp, c.batchTotal = some bt)
    (hbad : (∃ i, 1 ≤ i ∧ i ≤ bt ∧ ∀ c ∈ grp, c.batchSeq ≠ some i)
      ∨ ¬ (grp.map (fun c => c.batchSeq)).Nodup) :
    (checkBatchInline b grp).isSome = true := by
  obtain ⟨c0, rest, rfl⟩ : ∃ c0 rest, grp = c0 :: rest := by
    cases grp with
    | nil => exact absurd rfl hne
    | cons c0 rest => exact ⟨c0, rest, rfl⟩
  have ht0 : c0.batchTotal = some bt := htot c0 (List.mem_cons_self _ _)
  have hbt0 : bt ≠ 0 := by
    have hm0 := hmeta c0 (List.mem_cons_self _ _)
    unfold hasBatchMeta at hm0
    simp only [Bool.and_eq_true] at hm0
    have htr := hm0.2
    rw [ht0] at htr
    unfold truthyNat at htr
    exact of_decide_eq_true htr
  unfold checkBatchInline
  simp only [List.head?_cons, ht0, hbt0, if_false]
  have hseq_mem : ∀ i : Nat,
      (some i ∈ seqSet (c0 :: rest)) ↔ ∃ c ∈ c0 :: rest, c.batchSeq = some i := by
    intro i
    unfold seqSet
    rw [List.mem_dedup, List.mem_map]
  rcases hbad with ⟨i, h1i, hibt, hnone⟩ | hdup
  · have hmem : i ∈ missingSeqs bt (seqSet (c0 :: rest)) := by
      unfold missingSeqs
      rw [List.mem_filter]
      refine ⟨List.mem_range'_1.mpr ⟨h1i, by omega⟩, ?_⟩
      rw [decide_eq_true_eq]
      intro hin
      obtain ⟨c, hc, he⟩ := (hseq_mem i).mp hin
      exact hnone c hc he
    rw [if_pos (List.ne_nil_of_mem hmem)]
    rfl
  · by_cases hmiss : missingSeqs bt (seqSet (c0 :: rest)) ≠ []
    · rw [if_pos hmiss]; rfl
    · rw [if_neg hmiss]
      have hlen : (seqSet (c0 :: rest)).length ≠ (c0 :: rest).length := by
        intro heq
        apply hdup
        have hsub : (seqSet (c0 :: rest)).Sublist
            ((c0 :: rest).map (fun c => c.batchSeq)) := List.dedup_sublist _
        have hlm : ((c0 :: rest).map (fun c => c.batchSeq)).length
            = (c0 :: rest).length := List.length_map _ _
        have : seqSet (c0 :: rest) = (c0 :: rest).map (fun c => c.batchSeq) :=
          hsub.eq_of_length (by rw [heq, hlm])
        rw [← this]
        exact List.nodup_dedup _
      rw [if_pos hlen]
      rfl

/-- When some batch fails its check, the walk over the batch map returns
the first such error. -/
theorem firstBatchError_of_mem
    (f : String → List Change → Option BatchError)
    (l : List (String × List Change))
    (hex : ∃ p ∈ l, (f p.1 p.2).isSome = true) :
    ∃ e q, q ∈ l ∧ f q.1 q.2 = some e ∧ firstBatchError f l = some e := by
  induction l with
  | nil => simp at hex
  | cons hd tl ih =>
    obtain ⟨b, grp⟩ := hd
    cases hf : f b grp with
    | some e =>
      exact ⟨e, (b, grp), List.mem_cons_self _ _, hf, by
        unfold firstBatchError; rw [hf]⟩
    | none =>
      obtain ⟨p, hp, hsome⟩ := hex
      rcases List.mem_cons.mp hp with h | h
      · subst h; rw [hf] at hsome; simp at hsome
      · obtain ⟨e, q, hq, hqe, hw⟩ := ih ⟨p, h, hsome⟩
        exact ⟨e, q, List.mem_cons_of_mem _ hq, hqe, by
          unfold firstBatchError; rw [hf]; exact hw⟩

/-- C3 (amended): `POST /sync/push` is atomic with respect to batch
validation: when some batch of the request — a non-empty `batch_id` whose
changes carry `batchSeq` and `batchTotal` — misses a sequence number in
`{1..batch_total}` or contains a duplicate, the endpoint returns 400 with
structured diagnostics and the store is left unchanged. (Sequence numbers
outside `{1..batch_total}` are not themselves rejected; see the
counterexample.) -/
theorem push_batch_validation_atomic (st : Store) (u v : String)
    (changes : List Change) (now : Nat)
    (h : ∃ p ∈ buildBatchMap changes, ∃ bt : Nat,
      (∀ c ∈ p.2, c.batchTotal = some bt) ∧
      ((∃ i, 1 ≤ i ∧ i ≤ bt ∧ ∀ c ∈ p.2, c.batchSeq ≠ some i)
        ∨ ¬ (p.2.map (fun c => c.batchSeq)).Nodup)) :
    ∃ e, pushHandler st u v changes now = (st, PushResp.badRequest e)
      ∧ inlineValidate changes = some e
      ∧ ((∃ bid miss exp recv,
            e = BatchError.incomplete bid miss exp recv ∧ miss ≠ [])
        ∨ ∃ bid, e = BatchError.duplicate bid) := by
  obtain ⟨p, hp, bt, htot, hbad⟩ := h
  have hgrp := buildBatchMap_groups changes p hp
  have hfail : (checkBatchInline p.1 p.2).isSome = true :=
    checkBatchInline_isSome_of_bad p.1 p.2 hgrp.1 hgrp.2 bt htot hbad
  obtain ⟨e, q, hq, hqe, hw⟩ :=
    firstBatchError_of_mem checkBatchInline (buildBatchMap changes)
      ⟨p, hp, hfail⟩
  have hval : inlineValidate changes = some e := hw
  refine ⟨e, ?_, hval, checkBatchInline_shape q.1 q.2 e hqe⟩
  unfold pushHandler
  rw [hval]

/-- C3 witness: a single change claiming batch `"B"` with sequence 1 of
2 is rejected with the incomplete diagnosis and nothing is written. -/
theorem push_batch_validation_atomic_witness :
    ∃ e, pushHandler [] "u" "v" [mkBatched "t1" 1 2] 3
        = ([], PushResp.badRequest e)
      ∧ inlineValidate [mkBatched "t1" 1 2] = some e
      ∧ ((∃ bid miss exp recv,
            e = BatchError.incomplete bid miss exp recv ∧ miss ≠ [])
        ∨ ∃ bid, e = BatchError.duplicate bid) :=
  push_batch_validation_atomic [] "u" "v" [mkBatched "t1" 1 2] 3
    ⟨("B", [mkBatched "t1" 1 2]), by decide, 2, by decide,
      Or.inl ⟨2, by decide, by decide, by decide⟩⟩

/-- C3 counterexample: a batch with `batch_total = 2` and sequence
numbers `{1, 2, 5}` — not equal to `{1..2}` — passes validation; the push
is accepted with a 200 response and all three records are written, so the
claimed 400-with-unchanged-store does not hold for sequence sets that
merely contain out-of-range numbers. -/
theorem push_out_of_range_seq_accepted :
    (mkBatched "t3" 5 2).batchSeq = some 5
    ∧ (mkBatched "t3" 5 2).batchTotal = some 2
    ∧ inlineValidate
        [mkBatched "t1" 1 2, mkBatched "t2" 2 2, mkBatched "t3" 5 2] = none
    ∧ (pushHandler [] "u" "v"
        [mkBatched "t1" 1 2, mkBatched "t2" 2 2, mkBatched "t3" 5 2] 7).1.length = 3
    ∧ (pushHandler [] "u" "v"
        [mkBatched "t1" 1 2, mkBatched "t2" 2 2, mkBatched "t3" 5 2] 7).2
        = PushResp.ok 3 (some "h5") 7 := by
  decide

/-- Looking up the cell just written returns the written row. -/
theorem lookupCell_setCell_self (st : Store) (k : Cell) (r : StoredRow) :
    lookupCell (setCell st k r) k = some r := by
  induction st with
  | nil => simp [setCell, lookupCell, List.find?]
  | cons hd tl ih =>
    obtain ⟨k', r'⟩ := hd
    unfold setCell
    by_cases hk : k' = k
    · simp [hk, lookupCell, List.find?]
    · simp only [hk, if_false]
      unfold lookupCell at ih ⊢
      simp only [List.find?_cons, hk, decide_False]
      exact ih

/-- The transaction returns one row per submitted change. -/
theorem applyChanges_length (u v : String) (now : Nat) :
    ∀ (changes : List Change) (st : Store),
      (applyChanges st u v now changes).2.length = changes.length := by
  intro changes
  induction changes with
  | nil => intro st; rfl
  | cons c rest ih => intro st; simp [applyChanges, ih]

/-- After the transaction, the final store holds, at the cell of the last
submitted change, a row whose `hlc_timestamp` is the last entry of the
returned list. -/
theorem applyChanges_last (u v : String) (now : Nat) :
    ∀ (changes : List Change) (st : Store), changes ≠ [] →
      ∃ last r, changes.getLast? = some last
        ∧ lookupCell (applyChanges st u v now changes).1 (cellOf v last) = some r
        ∧ (applyChanges st u v now changes).2.getLast? = some r.hlcTimestamp := by
  intro changes
  induction changes with
  | nil => intro st h; exact absurd rfl h
  | cons c rest ih =>
    intro st _
    cases rest with
    | nil =>
      refine ⟨c, applyCell (lookupCell st (cellOf v c)) c u now, rfl, ?_, rfl⟩
      simp only [applyChanges, upsertChange]
      exact lookupCell_setCell_self st (cellOf v c) _
    | cons c2 rest2 =>
      obtain ⟨last, r, hl, hlk, hh⟩ :=
        ih (upsertChange st u v c now).1 (by simp)
      refine ⟨last, r, ?_, ?_, ?_⟩
      · rw [List.getLast?_cons_cons]; exact hl
      · simp only [applyChanges]
        exact hlk
      · have hne2 : (applyChanges (upsertChange st u v c now).1 u v now
            (c2 :: rest2)).2 ≠ [] := by
          intro he
          have hlen := applyChanges_length u v now (c2 :: rest2)
            (upsertChange st u v c now).1
          rw [he] at hlen
          simp at hlen
        obtain ⟨x, xs, hx⟩ : ∃ x xs,
            (applyChanges (upsertChange st u v c now).1 u v now
              (c2 :: rest2)).2 = x :: xs := by
          cases hq : (applyChanges (upsertChange st u v c now).1 u v now
              (c2 :: rest2)).2 with
          | nil => exact absurd hq hne2
          | cons x xs => exact ⟨x, xs, rfl⟩
        have hcons : applyChanges st u v now (c :: c2 :: rest2)
            = ((applyChanges (upsertChange st u v c now).1 u v now
                  (c2 :: rest2)).1,
               (upsertChange st u v c now).2 ::
                 (applyChanges (upsertChange st u v c now).1 u v now
                   (c2 :: rest2)).2) := rfl
        rw [hcons, hx]
        rw [hx] at hh
        rw [List.getLast?_cons_cons]
        exact hh

/-- C7 (amended): the 200 response of an accepted push reports
`count = changes.length` (one row touched per change), `serverTimestamp`
equal to the server time of the request, and `lastHlc` equal to the
post-merge stored `hlc_timestamp` of the *last change in submission
order* — not the maximum HLC of the batch (see the counterexample). -/
theorem push_response_fields (st : Store) (u v : String)
    (changes : List Change) (now : Nat)
    (hval : inlineValidate changes = none) (hne : changes ≠ [])
    (_hnd : (changes.map (cellOf v)).Nodup) :
    ∃ st' last r, changes.getLast? = some last
      ∧ pushHandler st u v changes now
          = (st', PushResp.ok changes.length (some r.hlcTimestamp) now)
      ∧ lookupCell st' (cellOf v last) = some r := by
  obtain ⟨last, r, hl, hlk, hh⟩ := applyChanges_last u v now changes st hne
  refine ⟨(applyChanges st u v now changes).1, last, r, hl, ?_, hlk⟩
  unfold pushHandler
  rw [hval]
  simp only []
  rw [applyChanges_length u v now changes st, hh]

/-- C7 witness: instantiating the amended response theorem on a
two-change push. -/
theorem push_response_fields_witness :
    ∃ st' last r,
      [mkPlain "t" "r1" "b", mkPlain "t" "r2" "a"].getLast? = some last
      ∧ pushHandler [] "u" "v" [mkPlain "t" "r1" "b", mkPlain "t" "r2" "a"] 9
          = (st', PushResp.ok 2 (some r.hlcTimestamp) 9)
      ∧ lookupCell st' (cellOf "v" last) = some r :=
  push_response_fields [] "u" "v" [mkPlain "t" "r1" "b", mkPlain "t" "r2" "a"] 9
    (by decide) (by decide) (by decide)

/-- C7 counterexample: pushing HLCs `["b", "a"]` (to two cells of an
empty store) returns `lastHlc = "a"`, the HLC of the last submitted
change, while the lexicographic maximum of the batch is `"b"`; `lastHlc`
is therefore not the maximum HLC regardless of order. -/
theorem push_lastHlc_not_max :
    (pushHandler [] "u" "v" [mkPlain "t" "r1" "b", mkPlain "t" "r2" "a"] 9).2
        = PushResp.ok 2 (some "a") 9
    ∧ hlcMaxList ([mkPlain "t" "r1" "b", mkPlain "t" "r2" "a"].map
        (fun c => c.hlcTimestamp)) = "b"
    ∧ ("a" : String) ≠ "b" := by
  decide

/-- The stored HLC is at least the left argument of `hlcMax`. -/
theorem le_hlcMax_left (a b : String) : a.data ≤ (hlcMax a b).data := by
  unfold hlcMax textLt
  split
  · next h => exact le_of_lt h
  · exact le_refl _

/-- The stored HLC is at least the right argument of `hlcMax`. -/
theorem le_hlcMax_right (a b : String) : b.data ≤ (hlcMax a b).data := by
  unfold hlcMax textLt
  split
  · exact le_refl _
  · next h => exact le_of_not_lt h

/-- The running HLC maximum never decreases below its seed. -/
theorem le_foldl_hlcMax :
    ∀ (l : List String) (a : String), a.data ≤ (l.foldl hlcMax a).data := by
  intro l
  induction l with
  | nil => intro a; exact le_refl _
  | cons x xs ih =>
    intro a
    exact le_trans (le_hlcMax_left a x) (ih (hlcMax a x))

/-- The merged row's HLC is the maximum of the stored and incoming HLCs. -/
theorem mergeRow_hlc (r : StoredRow) (c : Change) (now : Nat) :
    (mergeRow r c now).hlcTimestamp = hlcMax r.hlcTimestamp c.hlcTimestamp := by
  unfold mergeRow hlcMax textLt
  split
  · rfl
  · rfl

/-- Behaviour of the fold of `ON CONFLICT` merges over a push sequence:
the resulting HLC is the running lexicographic maximum; if it equals the
seed's HLC the row is unchanged; otherwise the value fields come from the
first push whose HLC equals the result. -/
theorem foldl_mergeRow_spec :
    ∀ (rest : List (Change × Nat)) (r : StoredRow),
      ((rest.foldl pushStep r).hlcTimestamp
        = (rest.map (fun q => q.1.hlcTimestamp)).foldl hlcMax r.hlcTimestamp)
      ∧ ((rest.foldl pushStep r).hlcTimestamp = r.hlcTimestamp →
          rest.foldl pushStep r = r)
      ∧ ((rest.foldl pushStep r).hlcTimestamp ≠ r.hlcTimestamp →
          ∃ q, rest.find? (fun q => decide
              (q.1.hlcTimestamp = (rest.foldl pushStep r).hlcTimestamp)) = some q
            ∧ (rest.foldl pushStep r).deviceId = q.1.deviceId
            ∧ (rest.foldl pushStep r).encryptedValue = q.1.encryptedValue
            ∧ (rest.foldl pushStep r).nonce = q.1.nonce) := by
  intro rest
  induction rest with
  | nil =>
    intro r
    exact ⟨rfl, fun _ => rfl, fun h => absurd rfl h⟩
  | cons p tl ih =>
    intro r
    obtain ⟨c, t⟩ := p
    set r1 := pushStep r (c, t) with hr1
    have hfold : ((c, t) :: tl).foldl pushStep r = tl.foldl pushStep r1 := rfl
    have hA : (tl.foldl pushStep r1).hlcTimestamp
        = (tl.map (fun q => q.1.hlcTimestamp)).foldl hlcMax r1.hlcTimestamp :=
      (ih r1).1
    have hr1max : r1.hlcTimestamp = hlcMax r.hlcTimestamp c.hlcTimestamp :=
      mergeRow_hlc r c t
    have hr_le_r1 : r.hlcTimestamp.data ≤ r1.hlcTimestamp.data := by
      rw [hr1max]; exact le_hlcMax_left _ _
    have hr1_le_res : r1.hlcTimestamp.data
        ≤ (tl.foldl pushStep r1).hlcTimestamp.data := by
      rw [hA]; exact le_foldl_hlcMax _ _
    refine ⟨?_, ?_, ?_⟩
    · rw [hfold, hA, hr1max]
      rfl
    · intro hEq
      rw [hfold] at hEq ⊢
      have h1 : r1.hlcTimestamp = r.hlcTimestamp := by
        apply String.ext
        apply le_antisymm
        · rw [← hEq]; exact hr1_le_res
        · exact hr_le_r1
      have hnolt : ¬ textLt r.hlcTimestamp c.hlcTimestamp := by
        intro hlt
        have : r1.hlcTimestamp = c.hlcTimestamp := by
          rw [hr1max]
          unfold hlcMax
          rw [if_pos hlt]
        rw [this] at h1
        exact absurd (h1 ▸ hlt) (lt_irrefl _)
      have hkeep : r1 = r := by
        rw [hr1]
        unfold pushStep
        exact if_neg hnolt
      rw [hkeep] at hEq ⊢
      exact (ih r).2.1 hEq
    · intro hNe
      rw [hfold] at hNe ⊢
      by_cases hcase : (tl.foldl pushStep r1).hlcTimestamp = r1.hlcTimestamp
      · -- the first push is the (first) winner
        have hres : tl.foldl pushStep r1 = r1 := (ih r1).2.1 hcase
        have hlt : textLt r.hlcTimestamp c.hlcTimestamp := by
          by_contra hnlt
          have : r1 = r := by rw [hr1]; unfold pushStep; exact if_neg hnlt
          rw [hres, this] at hNe
          exact hNe rfl
        have hr1c : r1 = { r with
            hlcTimestamp := c.hlcTimestamp
            deviceId := c.deviceId
            encryptedValue := c.encryptedValue
            nonce := c.nonce
            updatedAt := t } := by
          rw [hr1]; unfold pushStep mergeRow; exact if_pos hlt
        refine ⟨(c, t), ?_, ?_, ?_, ?_⟩
        · apply List.find?_cons_of_pos
          rw [decide_eq_true_eq, hcase, hr1c]
        · rw [hres, hr1c]
        · rw [hres, hr1c]
        · rw [hres, hr1c]
      · obtain ⟨q, hq, h1, h2, h3⟩ := (ih r1).2.2 hcase
        refine ⟨q, ?_, h1, h2, h3⟩
        have hpredF : ¬ (c.hlcTimestamp = (tl.foldl pushStep r1).hlcTimestamp) := by
          intro hEqc
          apply hcase
          apply String.ext
          apply le_antisymm
          · rw [← hEqc]
            rw [hr1max]
            exact le_hlcMax_right _ _
          · exact hr1_le_res
        rw [List.find?_cons_of_neg]
        · exact hq
        · rw [decide_eq_true_eq]
          exact hpredF

/-- The fold of `applyCell` over a non-empty push sequence inserts on the
first push and merges afterwards. -/
theorem applyCellSeq_cons (u : String) (c0 : Change) (t0 : Nat)
    (tl : List (Change × Nat)) :
    applyCellSeq u ((c0, t0) :: tl)
      = some (tl.foldl pushStep (freshRow u c0 t0)) := by
  unfold applyCellSeq
  simp only [List.foldl_cons]
  have haux : ∀ (l : List (Change × Nat)) (r : StoredRow),
      l.foldl (fun st q => some (applyCell st q.1 u q.2)) (some r)
        = some (l.foldl pushStep r) := by
    intro l
    induction l with
    | nil => intro r; rfl
    | cons q l' ih => intro r; exact ih (pushStep r q)
  exact haux tl (freshRow u c0 t0)

/-- C1: for any non-empty sequence of pushes targeting a single cell, the
stored record's `hlc_timestamp` is the lexicographic maximum of all
submitted HLCs, its value fields (`device_id`, `encrypted_value`,
`nonce`) are the ones submitted together with the first push attaining
that maximal HLC, and any push whose HLC is not strictly greater than the
stored one leaves the record entirely unchanged. -/
theorem cell_lww (u : String) (pushes : List (Change × Nat))
    (hne : pushes ≠ []) :
    ∃ r, applyCellSeq u pushes = some r
      ∧ r.hlcTimestamp = hlcMaxList (pushes.map (fun q => q.1.hlcTimestamp))
      ∧ (∃ q, pushes.find? (fun q =>
            decide (q.1.hlcTimestamp = r.hlcTimestamp)) = some q
          ∧ r.deviceId = q.1.deviceId
          ∧ r.encryptedValue = q.1.encryptedValue
          ∧ r.nonce = q.1.nonce)
      ∧ ∀ (s : StoredRow) (c : Change) (now : Nat),
          ¬ textLt s.hlcTimestamp c.hlcTimestamp → mergeRow s c now = s := by
  obtain ⟨⟨c0, t0⟩, tl, rfl⟩ : ∃ p tl, pushes = p :: tl := by
    cases pushes with
    | nil => exact absurd rfl hne
    | cons p tl => exact ⟨p, tl, rfl⟩
  set r0 := freshRow u c0 t0 with hr0
  set res := tl.foldl pushStep r0 with hres
  have hmax : res.hlcTimestamp
      = (tl.map (fun q => q.1.hlcTimestamp)).foldl hlcMax c0.hlcTimestamp :=
    (foldl_mergeRow_spec tl r0).1
  refine ⟨res, applyCellSeq_cons u c0 t0 tl, by
      rw [hmax]; rfl, ?_, fun s c now h => by unfold mergeRow; exact if_neg h⟩
  by_cases hcase : res.hlcTimestamp = r0.hlcTimestamp
  · have hr : res = r0 := (foldl_mergeRow_spec tl r0).2.1 hcase
    refine ⟨(c0, t0), ?_, ?_, ?_, ?_⟩
    · apply List.find?_cons_of_pos
      rw [decide_eq_true_eq, hcase]
      rfl
    · rw [hr]; rfl
    · rw [hr]; rfl
    · rw [hr]; rfl
  · obtain ⟨q, hq, h1, h2, h3⟩ := (foldl_mergeRow_spec tl r0).2.2 hcase
    refine ⟨q, ?_, h1, h2, h3⟩
    rw [List.find?_cons_of_neg]
    · exact hq
    · rw [decide_eq_true_eq]
      intro hc0
      exact hcase (by rw [← hc0]; rfl)

/-- C1 witness: three pushes with HLCs `["a", "c", "b"]` to one cell end
with the stored HLC `"c"` and the fields of the second push. -/
theorem cell_lww_witness :
    ([(mkPlain "t" "r" "a", 1), (mkPlain "t" "r" "c", 2),
        (mkPlain "t" "r" "b", 3)] : List (Change × Nat)) ≠ []
    ∧ ∃ r, applyCellSeq "u" [(mkPlain "t" "r" "a", 1), (mkPlain "t" "r" "c", 2),
        (mkPlain "t" "r" "b", 3)] = some r
      ∧ r.hlcTimestamp = hlcMaxList ([(mkPlain "t" "r" "a", 1),
          (mkPlain "t" "r" "c", 2), (mkPlain "t" "r" "b", 3)].map
            (fun q => q.1.hlcTimestamp))
      ∧ (∃ q, [(mkPlain "t" "r" "a", 1), (mkPlain "t" "r" "c", 2),
            (mkPlain "t" "r" "b", 3)].find? (fun q =>
              decide (q.1.hlcTimestamp = r.hlcTimestamp)) = some q
          ∧ r.deviceId = q.1.deviceId
          ∧ r.encryptedValue = q.1.encryptedValue
          ∧ r.nonce = q.1.nonce)
      ∧ ∀ (s : StoredRow) (c : Change) (now : Nat),
          ¬ textLt s.hlcTimestamp c.hlcTimestamp → mergeRow s c now = s :=
  ⟨by decide,
   cell_lww "u" [(mkPlain "t" "r" "a", 1), (mkPlain "t" "r" "c", 2),
     (mkPlain "t" "r" "b", 3)] (by decide)⟩

/-- C4: for every cell, `updated_at` is monotonically non-decreasing
along any push sequence whose server clock readings are non-decreasing
and start no earlier than the stored `updated_at`; a single merge sets
`updated_at` to the server's current time exactly when the incoming HLC
is strictly greater than the stored one, and a push that does not win the
HLC comparison leaves the row — `updated_at` included — exactly
unchanged. -/
theorem cell_updatedAt_monotone (r : StoredRow) (pushes : List (Change × Nat))
    (h : List.Chain' (· ≤ ·) (r.updatedAt :: pushes.map (fun q => q.2))) :
    List.Chain' (· ≤ ·) ((pushes.scanl pushStep r).map (fun s => s.updatedAt))
    ∧ ∀ (s : StoredRow) (c : Change) (now : Nat),
        ((mergeRow s c now).updatedAt
          = if textLt s.hlcTimestamp c.hlcTimestamp then now else s.updatedAt)
        ∧ (¬ textLt s.hlcTimestamp c.hlcTimestamp → mergeRow s c now = s) := by
  suffices hmain : ∀ (ps : List (Change × Nat)) (r0 : StoredRow),
      List.Chain' (· ≤ ·) (r0.updatedAt :: ps.map (fun q => q.2)) →
      List.Chain' (· ≤ ·) ((ps.scanl pushStep r0).map (fun s => s.updatedAt)) by
    refine ⟨hmain pushes r h, fun s c now => ⟨?_, fun hn => ?_⟩⟩
    · unfold mergeRow textLt
      split
      · rfl
      · rfl
    · unfold mergeRow
      exact if_neg hn
  intro ps
  induction ps with
  | nil =>
    intro r0 _
    simp [List.scanl]
  | cons p tl ih =>
    intro r0 h0
    obtain ⟨c, t⟩ := p
    simp only [List.map_cons] at h0
    rw [List.chain'_cons] at h0
    obtain ⟨hrt, h2⟩ := h0
    have hr1t : (pushStep r0 (c, t)).updatedAt ≤ t := by
      unfold pushStep mergeRow
      split
      · exact le_refl _
      · exact hrt
    have hr_r1 : r0.updatedAt ≤ (pushStep r0 (c, t)).updatedAt := by
      unfold pushStep mergeRow
      split
      · exact hrt
      · exact le_refl _
    rw [List.scanl_cons, List.singleton_append, List.map_cons]
    rw [List.chain'_cons']
    constructor
    · intro b hb
      cases tl with
      | nil =>
        simp only [List.scanl, List.map_cons, List.map_nil,
          List.head?_cons, Option.mem_def, Option.some.injEq] at hb
        rw [← hb]
        exact hr_r1
      | cons p2 tl2 =>
        rw [List.scanl_cons, List.singleton_append, List.map_cons,
          List.head?_cons] at hb
        rw [Option.mem_def, Option.some.injEq] at hb
        rw [← hb]
        exact hr_r1
    · apply ih
      rw [List.chain'_cons'] at h2 ⊢
      obtain ⟨hth, htl⟩ := h2
      exact ⟨fun b hb => le_trans hr1t (hth b hb), htl⟩

/-- C4 witness: a stored row written at time 1 and pushes at times 5 and
7 give a non-decreasing `updated_at` trace. -/
theorem cell_updatedAt_monotone_witness :
    List.Chain' (· ≤ ·) ((mkStored "t" "r" "c" 1).2.updatedAt ::
      [(mkPlain "t" "r" "b", 5), (mkPlain "t" "r" "a", 7)].map
        (fun q => q.2))
    ∧ (List.Chain' (· ≤ ·)
        (([(mkPlain "t" "r" "b", 5), (mkPlain "t" "r" "a", 7)].scanl pushStep
          (mkStored "t" "r" "c" 1).2).map (fun s => s.updatedAt))
      ∧ ∀ (s : StoredRow) (c : Change) (now : Nat),
          ((mergeRow s c now).updatedAt
            = if textLt s.hlcTimestamp c.hlcTimestamp then now
              else s.updatedAt)
          ∧ (¬ textLt s.hlcTimestamp c.hlcTimestamp → mergeRow s c now = s)) :=
  ⟨by simp [mkStored, mkPlain, List.chain'_cons, List.chain'_singleton],
   cell_updatedAt_monotone (mkStored "t" "r" "c" 1).2
     [(mkPlain "t" "r" "b", 5), (mkPlain "t" "r" "a", 7)]
     (by simp [mkStored, mkPlain, List.chain'_cons, List.chain'_singleton])⟩

/-- The composite pagination key determines the row group. -/
theorem rowKey_inj {a b : Nat × String × String} (h : rowKey a = rowKey b) :
    a = b := by
  rcases a with ⟨m, x, y⟩
  rcases b with ⟨m', x', y'⟩
  unfold rowKey at h
  rw [toLex_inj, Prod.mk.injEq, toLex_inj, Prod.mk.injEq] at h
  obtain ⟨hm, hx, hy⟩ := h
  have hm' : m = m' := hm
  have hx' : x = x' := String.ext hx
  have hy' : y = y' := String.ext hy
  rw [hm', hx', hy']

/-- A row group passing the `HAVING` clause has its composite key
strictly above the cursor triple. -/
theorem havingCond_lt (v : String) (ex : Option String) (t : Nat)
    (T R : String) (L : Nat) (m : Nat) (k : String × String)
    (h : havingCond ⟨v, ex, some t, some T, some R, L⟩ m k = true) :
    cursorKey t T R < rowKey (m, k.1, k.2) := by
  unfold havingCond at h
  dsimp only at h
  unfold cursorKey rowKey
  rw [Prod.Lex.lt_iff]
  dsimp only
  split at h
  · -- both secondary cursor components truthy
    rw [Bool.or_eq_true, Bool.and_eq_true] at h
    rcases h with h | ⟨hm, hp⟩
    · exact Or.inl (of_decide_eq_true h)
    · right
      have hmt : m = t := of_decide_eq_true hm
      refine ⟨by rw [hmt], ?_⟩
      unfold sqlPairGt at hp
      rw [Bool.or_eq_true, Bool.and_eq_true] at hp
      rw [Prod.Lex.lt_iff]
      dsimp only
      rcases hp with hp | ⟨he, hp⟩
      · exact Or.inl (of_decide_eq_true hp)
      · exact Or.inr ⟨(of_decide_eq_true he).symm, of_decide_eq_true hp⟩
  · exact Or.inl (of_decide_eq_true h)

/-- The group keys of the row page are pairwise distinct. -/
theorem rowPage_proj_nodup (st : Store) (u : String) (p : PullParams) :
    ((rowPage st u p).map (fun g => (g.2.1, g.2.2))).Nodup := by
  unfold rowPage
  have hgroups : (((rowKeysOf (baseRows st u p)).map
      (fun k => (groupMax (baseRows st u p) k, k.1, k.2))).map
        (fun g => (g.2.1, g.2.2)))
      = rowKeysOf (baseRows st u p) := by
    rw [List.map_map]
    have : ((fun g : Nat × String × String => (g.2.1, g.2.2)) ∘
        (fun k : String × String => (groupMax (baseRows st u p) k, k.1, k.2)))
        = id := by
      funext k
      simp
    rw [this, List.map_id]
  have hng : (((rowKeysOf (baseRows st u p)).map
      (fun k => (groupMax (baseRows st u p) k, k.1, k.2))).map
        (fun g => (g.2.1, g.2.2))).Nodup := by
    rw [hgroups]
    exact List.nodup_dedup _
  have hfil : ((((rowKeysOf (baseRows st u p)).map
      (fun k => (groupMax (baseRows st u p) k, k.1, k.2))).filter
        (fun g => havingCond p g.1 (g.2.1, g.2.2))).map
          (fun g => (g.2.1, g.2.2))).Nodup :=
    ((List.filter_sublist _).map _).nodup hng
  have hsort : ((List.insertionSort rowLe
      (((rowKeysOf (baseRows st u p)).map
        (fun k => (groupMax (baseRows st u p) k, k.1, k.2))).filter
          (fun g => havingCond p g.1 (g.2.1, g.2.2)))).map
            (fun g => (g.2.1, g.2.2))).Nodup :=
    (((List.perm_insertionSort rowLe _).map _).nodup_iff).mpr hfil
  exact ((List.take_sublist _ _).map _).nodup hsort

/-- C2: with a full cursor triple `(t, T, R)` and a limit in `[1, 1000]`,
the row page of `GET /sync/pull` contains only groups whose composite key
`(max(updated_at), table_name, row_pks)` is strictly greater than the
cursor under component-wise lexicographic comparison, contains at most
`limit` groups, and is strictly increasing in that composite key. -/
theorem pull_row_page_cursor_sound (st : Store) (u v : String)
    (ex : Option String) (t : Nat) (T R : String) (L : Nat)
    (_h1 : 1 ≤ L) (_h2 : L ≤ 1000) :
    (rowPage st u ⟨v, ex, some t, some T, some R, L⟩).length ≤ L
    ∧ (∀ g ∈ rowPage st u ⟨v, ex, some t, some T, some R, L⟩,
        cursorKey t T R < rowKey g)
    ∧ List.Pairwise rowLt
        (rowPage st u ⟨v, ex, some t, some T, some R, L⟩) := by
  refine ⟨List.length_take_le _ _, ?_, ?_⟩
  · intro g hg
    have hg1 : g ∈ List.insertionSort rowLe
        (((rowKeysOf (baseRows st u ⟨v, ex, some t, some T, some R, L⟩)).map
          (fun k => (groupMax (baseRows st u
            ⟨v, ex, some t, some T, some R, L⟩) k, k.1, k.2))).filter
              (fun g => havingCond ⟨v, ex, some t, some T, some R, L⟩
                g.1 (g.2.1, g.2.2))) := List.mem_of_mem_take hg
    rw [List.mem_insertionSort, List.mem_filter] at hg1
    exact havingCond_lt v ex t T R L g.1 (g.2.1, g.2.2) hg1.2
  · have hsorted : List.Pairwise (fun a b => rowLe a b)
        (rowPage st u ⟨v, ex, some t, some T, some R, L⟩) := by
      unfold rowPage
      exact (List.sorted_insertionSort rowLe _).sublist (List.take_sublist _ _)
    have hne : List.Pairwise
        (fun a b : Nat × String × String => (a.2.1, a.2.2) ≠ (b.2.1, b.2.2))
        (rowPage st u ⟨v, ex, some t, some T, some R, L⟩) :=
      List.pairwise_map.mp (rowPage_proj_nodup st u _)
    refine (hsorted.and hne).imp ?_
    rintro a b ⟨hle, hne⟩
    exact lt_of_le_of_ne hle (fun he => hne (by rw [rowKey_inj he]))

/-- C2 witness: the cursor-soundness theorem instantiated on a concrete
four-record store with cursor `(2, "t", "r0")` and limit 100. -/
theorem pull_row_page_cursor_sound_witness :
    (1 ≤ 100 ∧ 100 ≤ 1000)
    ∧ ((rowPage [mkStored "t" "r1" "c1" 1, mkStored "t" "r1" "c2" 1,
          mkStored "t" "r2" "c1" 5, mkStored "t" "r3" "c1" 3] "u"
          ⟨"v", none, some 2, some "t", some "r0", 100⟩).length ≤ 100
      ∧ (∀ g ∈ rowPage [mkStored "t" "r1" "c1" 1, mkStored "t" "r1" "c2" 1,
            mkStored "t" "r2" "c1" 5, mkStored "t" "r3" "c1" 3] "u"
            ⟨"v", none, some 2, some "t", some "r0", 100⟩,
          cursorKey 2 "t" "r0" < rowKey g)
      ∧ List.Pairwise rowLt
          (rowPage [mkStored "t" "r1" "c1" 1, mkStored "t" "r1" "c2" 1,
            mkStored "t" "r2" "c1" 5, mkStored "t" "r3" "c1" 3] "u"
            ⟨"v", none, some 2, some "t", some "r0", 100⟩)) :=
  ⟨by decide,
   pull_row_page_cursor_sound [mkStored "t" "r1" "c1" 1,
     mkStored "t" "r1" "c2" 1, mkStored "t" "r2" "c1" 5,
     mkStored "t" "r3" "c1" 3] "u" "v" none 2 "t" "r0" 100
     (by decide) (by decide)⟩

/-- C5: every change record of the requested user and vault whose
`(table_name, row_pks)` key was selected into the row page is returned by
the pull — all columns of the row, including records whose `updated_at`
is at or below the cursor. -/
theorem pull_returns_all_columns (st : Store) (u : String) (p : PullParams)
    (q : Cell × StoredRow) (hq : q ∈ st) (hu : q.2.userId = u)
    (hv : q.1.vaultId = p.vaultId)
    (hk : ∃ g ∈ rowPage st u p,
      q.1.tableName = g.2.1 ∧ q.1.rowPks = g.2.2) :
    q ∈ pullChanges st u p := by
  unfold pullChanges
  obtain ⟨g, hg, hk1, hk2⟩ := hk
  have hpage : ¬ ((rowPage st u p).isEmpty = true) := by
    intro he
    rw [List.isEmpty_iff] at he
    rw [he] at hg
    simp at hg
  rw [if_neg hpage]
  unfold allColumnsForRows
  rw [List.mem_insertionSort, List.mem_filter]
  refine ⟨hq, ?_⟩
  rw [Bool.and_eq_true, Bool.and_eq_true]
  refine ⟨⟨decide_eq_true hu, decide_eq_true hv⟩, ?_⟩
  rw [List.any_eq_true]
  exact ⟨g, hg, by
    rw [Bool.and_eq_true]
    exact ⟨decide_eq_true hk1, decide_eq_true hk2⟩⟩

/-- C5 witness: a row whose columns `c1`, `c2` were written at time 1,
with `c1` rewritten at time 5; a pull with cursor 3 selects the row and
returns the untouched `c2` record of time 1 as well. -/
theorem pull_returns_all_columns_witness :
    mkStored "t" "r1" "c2" 1 ∈ [mkStored "t" "r1" "c1" 5, mkStored "t" "r1" "c2" 1]
    ∧ (mkStored "t" "r1" "c2" 1).2.updatedAt < 3
    ∧ mkStored "t" "r1" "c2" 1 ∈ pullChanges
        [mkStored "t" "r1" "c1" 5, mkStored "t" "r1" "c2" 1] "u"
        ⟨"v", none, some 3, some "t", some "r0", 100⟩ :=
  ⟨by decide, by decide,
   pull_returns_all_columns
     [mkStored "t" "r1" "c1" 5, mkStored "t" "r1" "c2" 1] "u"
     ⟨"v", none, some 3, some "t", some "r0", 100⟩
     (mkStored "t" "r1" "c2" 1) (by decide) (by decide) (by decide)
     (by decide)⟩

end HaexSync
